import Mathlib

/-! # `LocalRepositoryConfigApplyConfiguration`

A shallow embedding of
`pkg/generated/applyconfiguration/provisioning/v0alpha1/localrepositoryconfig.go`.

The Go file declares a struct with one field `Path *string`, a constructor
`LocalRepositoryConfig()` returning `&LocalRepositoryConfigApplyConfiguration{}` and a
pointer-receiver method `WithPath` whose body is `b.Path = &value; return b`.

Both operations work through pointers, so the embedding passes an explicit heap:

* a pointer is `Option Addr`, `none` being Go's `nil`;
* the heap holds the string cells that `&value` creates and the holder structs that
  `&LocalRepositoryConfigApplyConfiguration{}` creates, each in allocation order;
* dereferencing `nil` is a run-time panic, which the embedding returns as an error.

A Go `string` is an immutable sequence of bytes, not necessarily valid UTF-8; it is
carried by `GoString`, a list of bytes.
-/

namespace V0alpha1

/-! ## Data model -/

/-- One byte. -/
abbrev Byte := Fin 256

/-- Go `string`: an immutable sequence of bytes. -/
abbrev GoString := List Byte

/-- Address of a heap cell. -/
abbrev Addr := Nat

/-- Go pointer value: `none` is `nil`, `some a` points at cell `a`. -/
abbrev Ptr := Option Addr

/-- The struct of the source: `Path *string` with tag `json:"path,omitempty"`. -/
structure LocalRepositoryConfigApplyConfiguration where
  Path : Ptr
deriving DecidableEq, Repr

/-- Heap: the string cells and the holder structs allocated so far. -/
structure Heap where
  strings : List GoString
  holders : List LocalRepositoryConfigApplyConfiguration
deriving DecidableEq, Repr

/-- Run-time failures of a pointer access. -/
inductive Panic where
  /-- Go: "invalid memory address or nil pointer dereference". -/
  | nilDereference
  /-- An address outside the heap; no Go program can form one. -/
  | danglingAddress
deriving DecidableEq, Repr

/-- Outcome of a step that may panic. -/
inductive Outcome (α : Type) where
  | ok (a : α)
  | panic (p : Panic)
deriving DecidableEq, Repr

/-- Sequencing of outcomes: a panic aborts what follows. -/
def Outcome.bind {α β : Type} (x : Outcome α) (f : α → Outcome β) : Outcome β :=
  match x with
  | .ok a => f a
  | .panic p => .panic p

/-- The empty heap. -/
def Heap.empty : Heap := { strings := [], holders := [] }

/-- A pointer refers to a holder of the heap (it is non-nil and in range). -/
def Heap.liveHolder (h : Heap) (b : Ptr) : Prop :=
  ∃ a, b = some a ∧ a < h.holders.length

instance (h : Heap) (b : Ptr) : Decidable (h.liveHolder b) :=
  match b with
  | none => isFalse (by rintro ⟨a, h1, _⟩; cases h1)
  | some a =>
    if hlt : a < h.holders.length then isTrue ⟨a, rfl, hlt⟩
    else isFalse (by rintro ⟨a1, h1, h2⟩; cases h1; exact hlt h2)

/-! ## Pointer accesses -/

/-- Go `*b` for a holder pointer. -/
def loadHolder (h : Heap) (b : Ptr) : Outcome LocalRepositoryConfigApplyConfiguration :=
  match b with
  | none => .panic .nilDereference
  | some a =>
    match h.holders[a]? with
    | some c => .ok c
    | none => .panic .danglingAddress

/-- Go `*p` for a string pointer. -/
def loadString (h : Heap) (p : Ptr) : Outcome GoString :=
  match p with
  | none => .panic .nilDereference
  | some a =>
    match h.strings[a]? with
    | some s => .ok s
    | none => .panic .danglingAddress

/-- Go `&value`: the variable `value` gets a heap cell of its own, whose address is
returned. -/
def addressOf (value : GoString) (h : Heap) : Ptr × Heap :=
  (some h.strings.length, { h with strings := h.strings ++ [value] })

/-! ## The operations of the source -/

/-- Source lines 15-17: `return &LocalRepositoryConfigApplyConfiguration{}`.
A new struct with the zero value in every field (`Path` is `nil`) is allocated
and its address returned. -/
def LocalRepositoryConfig (h : Heap) : Ptr × Heap :=
  (some h.holders.length, { h with holders := h.holders ++ [{ Path := none }] })

/-- Source lines 22-25: `b.Path = &value; return b`. -/
def WithPath (b : Ptr) (value : GoString) (h : Heap) : Outcome (Ptr × Heap) :=
  let (p, h1) := addressOf value h
  match b with
  | none => .panic .nilDereference
  | some a =>
    match h1.holders[a]? with
    | none => .panic .danglingAddress
    | some c => .ok (b, { h1 with holders := h1.holders.set a { c with Path := p } })

/-- The field values of the holder behind `b`: its `Path`, with the pointer followed.
`none` is an unset (`nil`) `Path`, `some s` a `Path` that points at the string `s`. -/
def fieldValues (h : Heap) (b : Ptr) : Outcome (Option GoString) :=
  (loadHolder h b).bind fun c =>
    match c.Path with
    | none => .ok none
    | some p => (loadString h (some p)).bind fun s => .ok (some s)

/-! ## Client programs named by the specification -/

/-- Successive `WithPath` calls on one holder, each made on the reference the previous
call returned: `b.WithPath(v1).WithPath(v2)...`. -/
def WithPathAll (b : Ptr) (values : List GoString) (h : Heap) : Outcome (Ptr × Heap) :=
  match values with
  | [] => .ok (b, h)
  | v :: vs => (WithPath b v h).bind fun r => WithPathAll r.1 vs r.2

/-- The chained expression `LocalRepositoryConfig().WithPath(s)`; the holder is read
through the reference that the chain evaluates to. -/
def chained (s : GoString) (h : Heap) : Outcome (Option GoString) :=
  let (b, h1) := LocalRepositoryConfig h
  (WithPath b s h1).bind fun r => fieldValues r.2 r.1

/-- The two-step sequence `b := LocalRepositoryConfig(); b.WithPath(s)`; the result of
`WithPath` is dropped and the holder is read through `b`. -/
def twoStep (s : GoString) (h : Heap) : Outcome (Option GoString) :=
  let (b, h1) := LocalRepositoryConfig h
  (WithPath b s h1).bind fun r => fieldValues r.2 b

/-- The heap after one constructor call on the empty heap: a single unset holder at
address `0`. -/
def oneHolder : Heap := (LocalRepositoryConfig Heap.empty).2

/-! ## Serialization -/

/-- A byte lies between `lo` and `hi`, both included. -/
def between (lo hi : Nat) (b : Byte) : Bool :=
  decide (lo ≤ b.val) && decide (b.val ≤ hi)

/-- Width in bytes of the UTF-8 encoding that starts a string, `0` when the string does
not start with one. The lead byte fixes the width and the range of the second byte:
`00-7F` alone; `C2-DF` with one continuation byte; `E0-EF` with two, the first within
`A0-BF` after `E0` and within `80-9F` after `ED`; `F0-F4` with three, the first within
`90-BF` after `F0` and within `80-8F` after `F4`; any other continuation byte within
`80-BF`. -/
def runeWidth : GoString → Nat
  | [] => 0
  | b0 :: rest =>
    if b0.val < 0x80 then 1
    else if between 0xC2 0xDF b0 then
      match rest with
      | b1 :: _ => if between 0x80 0xBF b1 then 2 else 0
      | _ => 0
    else if between 0xE0 0xEF b0 then
      match rest with
      | b1 :: b2 :: _ =>
        if between (if b0.val = 0xE0 then 0xA0 else 0x80)
              (if b0.val = 0xED then 0x9F else 0xBF) b1
            && between 0x80 0xBF b2 then 3 else 0
      | _ => 0
    else if between 0xF0 0xF4 b0 then
      match rest with
      | b1 :: b2 :: b3 :: _ =>
        if between (if b0.val = 0xF0 then 0x90 else 0x80)
              (if b0.val = 0xF4 then 0x8F else 0xBF) b1
            && between 0x80 0xBF b2 && between 0x80 0xBF b3 then 4 else 0
      | _ => 0
    else 0

/-- Validity of a string as UTF-8, read left to right; `pending` counts the bytes still
to pass of an encoding whose width `runeWidth` has already checked. -/
def validFrom : Nat → GoString → Bool
  | _, [] => true
  | pending + 1, _ :: rest => validFrom pending rest
  | 0, b :: rest =>
    match runeWidth (b :: rest) with
    | 0 => false
    | w + 1 => validFrom w rest

/-- The string is valid UTF-8. -/
def validUTF8 (s : GoString) : Bool := validFrom 0 s

/-- The UTF-8 encoding of U+FFFD, the replacement character. -/
def replacementChar : GoString := [0xEF, 0xBF, 0xBD]

/-- Coercion of a string to valid UTF-8, read left to right: a valid encoding is kept
byte for byte, a byte that starts none is replaced by U+FFFD; `pending` is as in
`validFrom`. -/
def coerceFrom : Nat → GoString → GoString
  | _, [] => []
  | pending + 1, b :: rest => b :: coerceFrom pending rest
  | 0, b :: rest =>
    match runeWidth (b :: rest) with
    | 0 => replacementChar ++ coerceFrom 0 rest
    | w + 1 => b :: coerceFrom w rest

/-- The string coerced to valid UTF-8. -/
def toValidUTF8 (s : GoString) : GoString := coerceFrom 0 s

/-- Structured representation of an encoded holder: `null`, or an object given by its
members (key and string value) in order. -/
inductive JSON where
  | null
  | object (members : List (String × GoString))
deriving DecidableEq, Repr

/-- Modelled from the spec: the encoder that reads the field tag
`json:"path,omitempty"` is no part of the source file, which only carries the tag.
Following the serialization contract, the field is left out when `Path` is unset and
is a member under the key "path" when it is set. The value of the member is the string
`Path` points at, coerced to valid UTF-8 the way Go's `encoding/json` documents for
string values (invalid bytes become U+FFFD); escaping in the output text does not
change the value and is not modelled. A `nil` holder pointer encodes as `null`. -/
def Marshal (h : Heap) (b : Ptr) : Outcome JSON :=
  match b with
  | none => .ok .null
  | some a =>
    (loadHolder h (some a)).bind fun c =>
      match c.Path with
      | none => .ok (.object [])
      | some p =>
        (loadString h (some p)).bind fun s => .ok (.object [("path", toValidUTF8 s)])

/-- The members of an encoded holder that sit under a given key. -/
def JSON.lookup (j : JSON) (key : String) : List GoString :=
  match j with
  | .null => []
  | .object ms => (ms.filter fun kv => kv.1 == key).map fun kv => kv.2

/-! ## Basic facts about the operations -/

/-- On a reference to a holder of the heap, `WithPath` returns that reference and a
heap that differs in one new string cell and in the `Path` of that holder. -/
theorem WithPath_eq (h : Heap) (a : Addr) (v : GoString) (ha : a < h.holders.length) :
    WithPath (some a) v h =
      .ok (some a, { strings := h.strings ++ [v],
                     holders := h.holders.set a { Path := some h.strings.length } }) := by
  simp [WithPath, addressOf, List.getElem?_eq_getElem ha]

/-- Reading the holder that `WithPath` has just written. -/
theorem loadHolder_set (ss : List GoString) (hs : List LocalRepositoryConfigApplyConfiguration)
    (a : Addr) (c : LocalRepositoryConfigApplyConfiguration) (ha : a < hs.length) :
    loadHolder { strings := ss, holders := hs.set a c } (some a) = .ok c := by
  simp [loadHolder, ha]

/-- Reading the string cell that `&value` has just created. -/
theorem loadString_new (ss : List GoString) (v : GoString)
    (hs : List LocalRepositoryConfigApplyConfiguration) :
    loadString { strings := ss ++ [v], holders := hs } (some ss.length) = .ok v := by
  simp [loadString]

/-- Summary of one `WithPath` call on a reference to a holder of the heap. -/
theorem WithPath_live (h : Heap) (b : Ptr) (v : GoString) (hb : h.liveHolder b) :
    ∃ h1 p, WithPath b v h = .ok (b, h1) ∧ h1.liveHolder b ∧
      h1.holders.length = h.holders.length ∧
      loadHolder h1 b = .ok { Path := some p } ∧ loadString h1 (some p) = .ok v ∧
      fieldValues h1 b = .ok (some v) := by
  obtain ⟨a, rfl, ha⟩ := hb
  refine ⟨_, h.strings.length, WithPath_eq h a v ha, ⟨a, rfl, by simpa using ha⟩,
    by simp, loadHolder_set _ _ a _ ha, loadString_new _ _ _, ?_⟩
  simp [fieldValues, loadHolder_set _ _ a _ ha, loadString_new, Outcome.bind]

/-- The constructor returns a reference to a holder of the new heap. -/
theorem LocalRepositoryConfig_live (h : Heap) :
    (LocalRepositoryConfig h).2.liveHolder (LocalRepositoryConfig h).1 :=
  ⟨h.holders.length, rfl, by simp [LocalRepositoryConfig]⟩

/-- The holder that the constructor returns has a `nil` `Path`. -/
theorem loadHolder_LocalRepositoryConfig (h : Heap) :
    loadHolder (LocalRepositoryConfig h).2 (LocalRepositoryConfig h).1 =
      .ok { Path := none } := by
  simp [loadHolder, LocalRepositoryConfig]

/-- Coercion leaves a valid string as it is. -/
theorem coerceFrom_of_validFrom (s : GoString) :
    ∀ pending : Nat, validFrom pending s = true → coerceFrom pending s = s := by
  induction s with
  | nil => intro pending _; cases pending <;> rfl
  | cons b rest ih =>
    intro pending hv
    cases pending with
    | succ k =>
      simp only [validFrom] at hv
      simp only [coerceFrom, ih k hv]
    | zero =>
      simp only [validFrom] at hv
      simp only [coerceFrom]
      cases hw : runeWidth (b :: rest) with
      | zero => rw [hw] at hv; simp at hv
      | succ w =>
        rw [hw] at hv
        simp only at hv
        simp only [ih w hv]

/-- Summary of a non-empty run of `WithPath` calls. -/
theorem WithPathAll_live (vs : List GoString) (s : GoString) (hl : vs.getLast? = some s) :
    ∀ (h : Heap) (b : Ptr), h.liveHolder b →
      ∃ h1 p, WithPathAll b vs h = .ok (b, h1) ∧ h1.liveHolder b ∧
        loadHolder h1 b = .ok { Path := some p } ∧ loadString h1 (some p) = .ok s ∧
        fieldValues h1 b = .ok (some s) := by
  induction vs with
  | nil => simp at hl
  | cons v vs ih =>
    intro h b hb
    obtain ⟨h1, p, hw, hb1, -, hld, hls, hfv⟩ := WithPath_live h b v hb
    cases vs with
    | nil =>
      have hv : v = s := by simpa using hl
      subst hv
      exact ⟨h1, p, by simp [WithPathAll, hw, Outcome.bind], hb1, hld, hls, hfv⟩
    | cons w ws =>
      have hl1 : (w :: ws).getLast? = some s := by
        simpa [List.getLast?_cons_cons] using hl
      obtain ⟨h2, q, hw2, hb2, hld2, hls2, hfv2⟩ := ih hl1 h1 b hb1
      refine ⟨h2, q, ?_, hb2, hld2, hls2, hfv2⟩
      rw [WithPathAll, hw]
      exact hw2

/-! ## The claims -/

/-- C1: for every string `s` (the empty one included) and every heap, `WithPath(s)` on
the holder that `LocalRepositoryConfig()` has just returned succeeds and leaves a holder
whose `Path` is a non-nil pointer at a cell holding exactly `s`. -/
theorem WithPath_on_fresh_holder (s : GoString) (h : Heap) :
    ∃ b h1 p,
      WithPath (LocalRepositoryConfig h).1 s (LocalRepositoryConfig h).2 = .ok (b, h1) ∧
      loadHolder h1 b = .ok { Path := some p } ∧ loadString h1 (some p) = .ok s ∧
      fieldValues h1 b = .ok (some s) := by
  obtain ⟨h1, p, hw, -, -, hld, hls, hfv⟩ :=
    WithPath_live (LocalRepositoryConfig h).2 (LocalRepositoryConfig h).1 s
      (LocalRepositoryConfig_live h)
  exact ⟨_, h1, p, hw, hld, hls, hfv⟩

/-- C2: for every holder `b` of a heap and all strings `s1`, `s2`, the calls
`b.WithPath(s1)` and then `b.WithPath(s2)` both succeed and leave `Path` set to `s2`;
replacing `s1` by any other string `t1` gives the same holder struct and the same field
values. -/
theorem WithPath_last_write_wins (h : Heap) (b : Ptr) (s1 s2 : GoString)
    (hb : h.liveHolder b) :
    ∃ h2 p,
      (WithPath b s1 h).bind (fun r => WithPath b s2 r.2) = .ok (b, h2) ∧
      loadHolder h2 b = .ok { Path := some p } ∧ loadString h2 (some p) = .ok s2 ∧
      fieldValues h2 b = .ok (some s2) ∧
      ∀ t1 : GoString, ∃ k2,
        (WithPath b t1 h).bind (fun r => WithPath b s2 r.2) = .ok (b, k2) ∧
        loadHolder k2 b = loadHolder h2 b ∧ fieldValues k2 b = fieldValues h2 b := by
  obtain ⟨a, rfl, ha⟩ := hb
  have step : ∀ t : GoString,
      (WithPath (some a) t h).bind (fun r => WithPath (some a) s2 r.2) =
        .ok (some a, { strings := (h.strings ++ [t]) ++ [s2],
                       holders := (h.holders.set a { Path := some h.strings.length }).set a
                         { Path := some (h.strings.length + 1) } }) := by
    intro t
    rw [WithPath_eq h a t ha]
    simp only [Outcome.bind]
    rw [WithPath_eq _ a s2 (by simpa using ha)]
    simp
  have hld : ∀ t : GoString,
      loadHolder { strings := (h.strings ++ [t]) ++ [s2],
                   holders := (h.holders.set a { Path := some h.strings.length }).set a
                     { Path := some (h.strings.length + 1) } } (some a) =
        .ok { Path := some (h.strings.length + 1) } := fun t =>
    loadHolder_set _ _ a _ (by simpa using ha)
  have hls : ∀ t : GoString,
      loadString { strings := (h.strings ++ [t]) ++ [s2],
                   holders := (h.holders.set a { Path := some h.strings.length }).set a
                     { Path := some (h.strings.length + 1) } } (some (h.strings.length + 1)) =
        .ok s2 := by
    intro t
    have := loadString_new (h.strings ++ [t]) s2
      ((h.holders.set a { Path := some h.strings.length }).set a
        { Path := some (h.strings.length + 1) })
    simpa using this
  have hfv : ∀ t : GoString,
      fieldValues { strings := (h.strings ++ [t]) ++ [s2],
                    holders := (h.holders.set a { Path := some h.strings.length }).set a
                      { Path := some (h.strings.length + 1) } } (some a) =
        .ok (some s2) := by
    intro t
    simp only [fieldValues, hld t, Outcome.bind, hls t]
  refine ⟨_, h.strings.length + 1, step s1, hld s1, hls s1, hfv s1, fun t1 => ?_⟩
  exact ⟨_, step t1, (hld t1).trans (hld s1).symm, (hfv t1).trans (hfv s1).symm⟩

/-- C3: in every heap, `LocalRepositoryConfig()` returns a non-nil reference to a holder
whose only field `Path` is `nil`; read as a field value it is absent, which is not the
same as present with the empty string. -/
theorem LocalRepositoryConfig_unset (h : Heap) :
    ∃ a, (LocalRepositoryConfig h).1 = some a ∧
      loadHolder (LocalRepositoryConfig h).2 (some a) = .ok { Path := none } ∧
      fieldValues (LocalRepositoryConfig h).2 (some a) = .ok none ∧
      fieldValues (LocalRepositoryConfig h).2 (some a) ≠ .ok (some []) := by
  have hld := loadHolder_LocalRepositoryConfig h
  have hfv : fieldValues (LocalRepositoryConfig h).2 (LocalRepositoryConfig h).1 = .ok none := by
    simp only [fieldValues, hld, Outcome.bind]
  refine ⟨h.holders.length, rfl, hld, hfv, ?_⟩
  intro hne
  have h2 : (Outcome.ok none : Outcome (Option GoString)) = .ok (some []) := hfv.symm.trans hne
  cases h2

/-- C4: for every reference `b` to a holder of a heap and every string `s`,
`b.WithPath(s)` returns `b` itself; no holder is allocated, and the new `Path` is read
through `b` and through the returned reference alike. -/
theorem WithPath_returns_receiver (h : Heap) (b : Ptr) (s : GoString)
    (hb : h.liveHolder b) :
    ∃ r h1, WithPath b s h = .ok (r, h1) ∧ r = b ∧
      h1.holders.length = h.holders.length ∧
      fieldValues h1 b = .ok (some s) ∧ fieldValues h1 r = .ok (some s) := by
  obtain ⟨h1, p, hw, -, hlen, -, -, hfv⟩ := WithPath_live h b s hb
  exact ⟨b, h1, hw, rfl, hlen, hfv, hfv⟩

/-- C5, as stated, fails: `nil` is a value of the receiver type
`*LocalRepositoryConfigApplyConfiguration`, and on it `WithPath` panics at the
assignment `b.Path = &value` instead of returning. -/
theorem WithPath_nil_receiver_panics :
    WithPath none [] Heap.empty = .panic .nilDereference ∧
    ¬ ∃ r, WithPath none [] Heap.empty = .ok r := by
  refine ⟨rfl, ?_⟩
  rintro ⟨r, hr⟩
  have h0 : WithPath none [] Heap.empty = .panic .nilDereference := rfl
  rw [h0] at hr
  cases hr

/-- C5, amended: in every heap, the empty one included, `LocalRepositoryConfig()`
returns a non-nil reference to a holder of the new heap, on which `WithPath(s)` returns
for every string `s`; and `WithPath(s)` returns without a panic for every receiver that
refers to a holder and every string `s`, whatever `s` is. -/
theorem WithPath_total_on_holders (h : Heap) :
    (∃ a, (LocalRepositoryConfig h).1 = some a ∧
      (LocalRepositoryConfig h).2.liveHolder (some a) ∧
      ∀ s : GoString, ∃ h1,
        WithPath (some a) s (LocalRepositoryConfig h).2 = .ok (some a, h1)) ∧
    ∀ (b : Ptr) (s : GoString), h.liveHolder b → ∃ h1, WithPath b s h = .ok (b, h1) := by
  refine ⟨⟨h.holders.length, rfl, LocalRepositoryConfig_live h, fun s => ?_⟩,
    fun b s hb => ?_⟩
  · obtain ⟨h1, p, hw, -⟩ :=
      WithPath_live (LocalRepositoryConfig h).2 (LocalRepositoryConfig h).1 s
        (LocalRepositoryConfig_live h)
    exact ⟨h1, hw⟩
  · obtain ⟨h1, p, hw, -⟩ := WithPath_live h b s hb
    exact ⟨h1, hw⟩

/-- C6: for every string `s` and every heap, the chained expression
`LocalRepositoryConfig().WithPath(s)` and the two-step sequence that keeps the
constructor result in `b` give the same field values, namely `Path` set to `s`. -/
theorem chained_eq_twoStep (s : GoString) (h : Heap) :
    chained s h = twoStep s h ∧ twoStep s h = .ok (some s) := by
  obtain ⟨h1, p, hw, -, -, -, -, hfv⟩ :=
    WithPath_live (LocalRepositoryConfig h).2 (LocalRepositoryConfig h).1 s
      (LocalRepositoryConfig_live h)
  have h2 : twoStep s h = .ok (some s) := by
    simp only [twoStep, hw, Outcome.bind, hfv]
  have h3 : chained s h = .ok (some s) := by
    simp only [chained, hw, Outcome.bind, hfv]
  exact ⟨h3.trans h2.symm, h2⟩

/-- C7: in every heap, the holder that `LocalRepositoryConfig()` has just returned
encodes to the empty object; nothing sits under the key "path". -/
theorem Marshal_fresh_holder (h : Heap) :
    Marshal (LocalRepositoryConfig h).2 (LocalRepositoryConfig h).1 = .ok (.object []) ∧
    ∀ j, Marshal (LocalRepositoryConfig h).2 (LocalRepositoryConfig h).1 = .ok j →
      j.lookup "path" = [] := by
  have hm : Marshal (LocalRepositoryConfig h).2 (LocalRepositoryConfig h).1 =
      .ok (.object []) := by
    have hld := loadHolder_LocalRepositoryConfig h
    simp only [LocalRepositoryConfig] at hld
    simp only [Marshal, LocalRepositoryConfig, hld, Outcome.bind]
  refine ⟨hm, fun j hj => ?_⟩
  rw [hm] at hj
  cases hj
  rfl

/-- C8, as stated, fails: a Go string need not be valid UTF-8. After `WithPath` with
the one-byte string `FF`, the member under "path" holds U+FFFD (bytes `EF BF BD`),
not the string that was set. -/
theorem Marshal_invalid_UTF8_differs :
    validUTF8 [0xFF] = false ∧
    (WithPath (some 0) [0xFF] oneHolder).bind (fun r => Marshal r.2 r.1) =
      .ok (.object [("path", [0xEF, 0xBF, 0xBD])]) ∧
    (WithPath (some 0) [0xFF] oneHolder).bind (fun r => Marshal r.2 r.1) ≠
      .ok (.object [("path", [0xFF])]) := by
  decide

/-- C8, amended: for every reference `b` to a holder of a heap and every string `s`,
after `b.WithPath(s)` the holder encodes to an object whose only member is the key
"path", with `s` coerced to valid UTF-8 as value; when `s` is valid UTF-8 the value is
`s` itself. The empty string is valid UTF-8. Whatever `s` is, the output differs from
the empty object and from the encoding of a holder that `LocalRepositoryConfig()` has
just returned. -/
theorem Marshal_after_WithPath (h : Heap) (b : Ptr) (s : GoString)
    (hb : h.liveHolder b) :
    ∃ h1, WithPath b s h = .ok (b, h1) ∧
      Marshal h1 b = .ok (.object [("path", toValidUTF8 s)]) ∧
      (∀ j, Marshal h1 b = .ok j → j.lookup "path" = [toValidUTF8 s]) ∧
      (validUTF8 s = true →
        Marshal h1 b = .ok (.object [("path", s)]) ∧
        ∀ j, Marshal h1 b = .ok j → j.lookup "path" = [s]) ∧
      validUTF8 [] = true ∧
      Marshal h1 b ≠ .ok (.object []) ∧
      Marshal h1 b ≠ Marshal (LocalRepositoryConfig h1).2 (LocalRepositoryConfig h1).1 := by
  obtain ⟨h1, p, hw, -, -, hld, hls, -⟩ := WithPath_live h b s hb
  obtain ⟨a, rfl, -⟩ := hb
  have hm : Marshal h1 (some a) = .ok (.object [("path", toValidUTF8 s)]) := by
    simp only [Marshal, hld, Outcome.bind, hls]
  have hlk : ∀ j, Marshal h1 (some a) = .ok j → j.lookup "path" = [toValidUTF8 s] := by
    intro j hj
    rw [hm] at hj
    cases hj
    simp [JSON.lookup]
  have hne : Marshal h1 (some a) ≠ .ok (.object []) := by
    rw [hm]
    intro hc
    cases hc
  refine ⟨h1, hw, hm, hlk, fun hv => ?_, rfl, hne, ?_⟩
  · have hc : toValidUTF8 s = s := coerceFrom_of_validFrom s 0 hv
    rw [hc] at hm hlk
    exact ⟨hm, hlk⟩
  · rw [(Marshal_fresh_holder h1).1]
    exact hne

/-- C9: for every holder `b` of a heap, whatever its `Path`, and every sequence of
strings whose last element is `s`, the successive `WithPath` calls all succeed and
leave `Path` set to `s`. Any other heap, holder and sequence with last element `s` give
the same field values, and one more `WithPath(s)` changes no field value, so
`WithPath(s)` is idempotent. -/
theorem WithPathAll_last (h : Heap) (b : Ptr) (vs : List GoString) (s : GoString)
    (hb : h.liveHolder b) (hl : vs.getLast? = some s) :
    ∃ h1 p, WithPathAll b vs h = .ok (b, h1) ∧
      loadHolder h1 b = .ok { Path := some p } ∧ loadString h1 (some p) = .ok s ∧
      fieldValues h1 b = .ok (some s) ∧
      (∀ (k : Heap) (c : Ptr) (ws : List GoString), k.liveHolder c → ws.getLast? = some s →
        ∃ k1, WithPathAll c ws k = .ok (c, k1) ∧ fieldValues k1 c = fieldValues h1 b) ∧
      (∃ g1 g2, WithPath b s h = .ok (b, g1) ∧ WithPath b s g1 = .ok (b, g2) ∧
        fieldValues g2 b = fieldValues g1 b) := by
  obtain ⟨h1, p, hw, -, hld, hls, hfv⟩ := WithPathAll_live vs s hl h b hb
  refine ⟨h1, p, hw, hld, hls, hfv, ?_, ?_⟩
  · intro k c ws hc hws
    obtain ⟨k1, -, hk, -, -, -, hkv⟩ := WithPathAll_live ws s hws k c hc
    exact ⟨k1, hk, hkv.trans hfv.symm⟩
  · obtain ⟨g1, -, hg1, hb1, -, -, -, hv1⟩ := WithPath_live h b s hb
    obtain ⟨g2, -, hg2, -, -, -, -, hv2⟩ := WithPath_live g1 b s hb1
    exact ⟨g1, g2, hg1, hg2, hv2.trans hv1.symm⟩

/-! ## The theorems at concrete inputs -/

/-- C2 on the holder at address `0` of `oneHolder`, with the strings "a" (byte `61`) and
then "b" (byte `62`). -/
theorem WithPath_last_write_wins_witness :
    oneHolder.liveHolder (some 0) ∧
    ∃ h2 p,
      (WithPath (some 0) [0x61] oneHolder).bind (fun r => WithPath (some 0) [0x62] r.2) =
        .ok (some 0, h2) ∧
      loadHolder h2 (some 0) = .ok { Path := some p } ∧
      loadString h2 (some p) = .ok [0x62] ∧
      fieldValues h2 (some 0) = .ok (some [0x62]) ∧
      ∀ t1 : GoString, ∃ k2,
        (WithPath (some 0) t1 oneHolder).bind (fun r => WithPath (some 0) [0x62] r.2) =
          .ok (some 0, k2) ∧
        loadHolder k2 (some 0) = loadHolder h2 (some 0) ∧
        fieldValues k2 (some 0) = fieldValues h2 (some 0) :=
  ⟨by decide, WithPath_last_write_wins oneHolder (some 0) [0x61] [0x62] (by decide)⟩

/-- C4 on the holder at address `0` of `oneHolder`, with the string "repo" (bytes
`72 65 70 6F`). -/
theorem WithPath_returns_receiver_witness :
    oneHolder.liveHolder (some 0) ∧
    ∃ r h1, WithPath (some 0) [0x72, 0x65, 0x70, 0x6F] oneHolder = .ok (r, h1) ∧
      r = some 0 ∧
      h1.holders.length = oneHolder.holders.length ∧
      fieldValues h1 (some 0) = .ok (some [0x72, 0x65, 0x70, 0x6F]) ∧
      fieldValues h1 r = .ok (some [0x72, 0x65, 0x70, 0x6F]) :=
  ⟨by decide,
    WithPath_returns_receiver oneHolder (some 0) [0x72, 0x65, 0x70, 0x6F] (by decide)⟩

/-- C5, amended: the constructor on the empty heap, and `WithPath` with the empty string
on the holder at address `0` of `oneHolder`. -/
theorem WithPath_total_on_holders_witness :
    (∃ a, (LocalRepositoryConfig Heap.empty).1 = some a ∧
      (LocalRepositoryConfig Heap.empty).2.liveHolder (some a) ∧
      ∀ s : GoString, ∃ h1,
        WithPath (some a) s (LocalRepositoryConfig Heap.empty).2 = .ok (some a, h1)) ∧
    oneHolder.liveHolder (some 0) ∧
    ∃ h1, WithPath (some 0) [] oneHolder = .ok (some 0, h1) :=
  ⟨(WithPath_total_on_holders Heap.empty).1, by decide,
    (WithPath_total_on_holders oneHolder).2 (some 0) [] (by decide)⟩

/-- C8, amended, on the holder at address `0` of `oneHolder`, with the empty string:
both hypotheses hold there, and the key "path" is present with the empty string as
value. -/
theorem Marshal_after_WithPath_witness :
    oneHolder.liveHolder (some 0) ∧ validUTF8 [] = true ∧
    ∃ h1, WithPath (some 0) [] oneHolder = .ok (some 0, h1) ∧
      Marshal h1 (some 0) = .ok (.object [("path", [])]) ∧
      (∀ j, Marshal h1 (some 0) = .ok j → j.lookup "path" = [[]]) ∧
      Marshal h1 (some 0) ≠ .ok (.object []) ∧
      Marshal h1 (some 0) ≠
        Marshal (LocalRepositoryConfig h1).2 (LocalRepositoryConfig h1).1 := by
  refine ⟨by decide, by decide, ?_⟩
  obtain ⟨h1, hw, -, -, hvalid, -, hne, hfresh⟩ :=
    Marshal_after_WithPath oneHolder (some 0) [] (by decide)
  exact ⟨h1, hw, (hvalid (by decide)).1, (hvalid (by decide)).2, hne, hfresh⟩

/-- C9 on the holder at address `0` of `oneHolder`, with the sequence "a", "b", "c"
(bytes `61`, `62`, `63`). -/
theorem WithPathAll_last_witness :
    oneHolder.liveHolder (some 0) ∧
    ([[0x61], [0x62], [0x63]] : List GoString).getLast? = some [0x63] ∧
    ∃ h1 p, WithPathAll (some 0) [[0x61], [0x62], [0x63]] oneHolder = .ok (some 0, h1) ∧
      loadHolder h1 (some 0) = .ok { Path := some p } ∧
      loadString h1 (some p) = .ok [0x63] ∧
      fieldValues h1 (some 0) = .ok (some [0x63]) ∧
      (∀ (k : Heap) (c : Ptr) (ws : List GoString), k.liveHolder c →
        ws.getLast? = some [0x63] →
        ∃ k1, WithPathAll c ws k = .ok (c, k1) ∧
          fieldValues k1 c = fieldValues h1 (some 0)) ∧
      (∃ g1 g2, WithPath (some 0) [0x63] oneHolder = .ok (some 0, g1) ∧
        WithPath (some 0) [0x63] g1 = .ok (some 0, g2) ∧
        fieldValues g2 (some 0) = fieldValues g1 (some 0)) :=
  ⟨by decide, rfl,
    WithPathAll_last oneHolder (some 0) [[0x61], [0x62], [0x63]] [0x63] (by decide) rfl⟩

end V0alpha1
